import Mathlib

/-!
Verification of the entity-collection layer of `mip/lists.py`.

The file embeds the four collection classes of the source —
`VarList`, `VVarList`, `ConstrList`, `VConstrList` — as executable Lean
functions and proves the specified properties about them.

Representation choices:
* an entity handle (`mip.entities.Var` / `Constr`) is a Python object with a
  mutable integer field `idx` and a back-reference to the single owning model;
  the model reference is common to every handle in play, so a handle is
  represented by its current index value;
* a Python method mutating handles is embedded as a function from the old
  state to the new state, together with a record of the calls it issued to
  the solver engine;
* Python runtime failures (`IndexError`, `AttributeError`, exhaustion of the
  interpreter recursion limit, `Exception` for bad key types) are embedded
  with `Except`.
-/

/-- Python runtime errors the embedded code can raise. -/
inductive PyErr
  | indexError
  | attributeError
  | recursionError
  | typeError
deriving DecidableEq

/-- Python list read `xs[i]`: a negative index counts from the end of the
list; an index out of range raises `IndexError`. -/
def pyGet {α : Type} (xs : List α) (i : Int) : Except PyErr α :=
  let pos : Int := if i < 0 then (xs.length : Int) + i else i
  if h : 0 ≤ pos ∧ pos < (xs.length : Int) then
    .ok (xs.get ⟨pos.toNat, by omega⟩)
  else
    .error .indexError

/-- Python list write `xs[i] = v`: same index resolution as `pyGet`. -/
def pySet {α : Type} (xs : List α) (i : Int) (v : α) : Except PyErr (List α) :=
  let pos : Int := if i < 0 then (xs.length : Int) + i else i
  if 0 ≤ pos ∧ pos < (xs.length : Int) then
    .ok (xs.set pos.toNat v)
  else
    .error .indexError

/-- Modelled from the spec: entity handle for a variable
(`mip.entities.Var`, not under `src/`).  Per the spec's data model it is a
back-reference to the owning model plus a mutable integer index, `-1` being
the detached sentinel; the model reference is shared by every handle here and
is omitted. -/
structure Var where
  idx : Int
deriving DecidableEq

/-- Modelled from the spec: entity handle for a constraint
(`mip.entities.Constr`, not under `src/`); same representation as `Var`. -/
structure Constr where
  idx : Int
deriving DecidableEq

/-- Modelled from the spec: variable kinds (`mip.constants`, not under
`src/`).  The collection code only compares the declared kind with the
binary kind. -/
inductive VarType
  | continuous
  | binary
  | integer
deriving DecidableEq

/-- Modelled from the spec: `mip.constants.CONTINUOUS`. -/
def CONTINUOUS : VarType := .continuous

/-- Modelled from the spec: `mip.constants.BINARY`. -/
def BINARY : VarType := .binary

/-- Modelled from the spec: a Python float used for bounds and objective
coefficients; either a finite value or `mip.constants.INF`. -/
inductive F
  | fin (q : ℚ)
  | inf
deriving DecidableEq

/-- Modelled from the spec: `mip.constants.INF`. -/
def INF : F := .inf

/-- Modelled from the spec: opaque column specification forwarded untouched
to the engine (`mip.entities.Column`, not under `src/`). -/
structure Column
deriving DecidableEq

/-- Modelled from the spec: opaque linear expression forwarded untouched to
the engine (`mip.entities.LinExpr`, not under `src/`). -/
structure LinExpr
deriving DecidableEq

/-- Record of one `solver.add_var(obj, lb, ub, var_type, column, name)`
engine call. -/
structure AddVarCall where
  obj : F
  lb : F
  ub : F
  var_type : VarType
  column : Option Column
  name : String
deriving DecidableEq

/-- Record of one `solver.add_constr(lin_expr, name)` engine call. -/
structure AddConstrCall where
  lin_expr : LinExpr
  name : String
deriving DecidableEq

/-! The loops of `VarList.remove` / `ConstrList.remove`.  The two methods
are textually identical up to the entity kind, so the index-level algorithm
is factored out and each class wraps it. -/

/-- The marking loop `for i in vlist: iv[i] = 0` of `remove`. -/
def markIv : List Nat → List Int → Except PyErr (List Nat)
  | iv, [] => .ok iv
  | iv, i :: rest =>
    match pySet iv i 0 with
    | .error e => .error e
    | .ok iv2 => markIv iv2 rest

/-- The reindexing loop of `remove`: walk the cached handles in order
(`seqIdx` holds their current indices); a handle whose bitmap slot
`iv[v.idx]` is `0` gets index `-1`, any other handle gets the running
counter, which then increments.  Returns the new index of each handle, in
the original order. -/
def reindexLoop (iv : List Nat) : List Int → Int → Except PyErr (List Int)
  | [], _ => .ok []
  | v :: rest, c =>
    match pyGet iv v with
    | .error e => .error e
    | .ok b =>
      if b = 0 then
        match reindexLoop iv rest c with
        | .error e => .error e
        | .ok tail => .ok (-1 :: tail)
      else
        match reindexLoop iv rest (c + 1) with
        | .error e => .error e
        | .ok tail => .ok (c :: tail)

/-- Pure form of `reindexLoop` once every bitmap read is known to succeed:
`f` gives the bitmap value read for a handle index.  Used to reason about
the loop. -/
def reindexPure (f : Int → Nat) : List Int → Int → List Int
  | [], _ => []
  | v :: rest, c =>
    if f v = 0 then -1 :: reindexPure f rest c
    else c :: reindexPure f rest (c + 1)

/-- Outcome of the shared index-level part of `remove`: `sent` is the
position list handed to the engine's batch removal call, `newIdx` the new
index of each originally cached handle, in original order. -/
structure RemoveCoreOut where
  sent : List Int
  newIdx : List Int
deriving DecidableEq

/-- Shared body of `VarList.remove` / `ConstrList.remove` on index level:
build the all-ones liveness bitmap, collect and sort the indices of the
handles to remove, mark their slots, issue the engine call with the sorted
list, then reindex the cached handles. -/
def removeCore (seqIdx : List Int) (remIdx : List Int) : Except PyErr RemoveCoreOut :=
  let iv0 := List.replicate seqIdx.length (1 : Nat)
  let vlist := remIdx.insertionSort (· ≤ ·)
  match markIv iv0 vlist with
  | .error e => .error e
  | .ok iv =>
    match reindexLoop iv seqIdx 0 with
    | .error e => .error e
    | .ok newIdx => .ok ⟨vlist, newIdx⟩

/-- Outcome of `VarList.remove`: the engine call, the new index of each
originally cached handle (aliased handles held by the caller observe these
values), and the new cached sequence after filtering out index `-1`. -/
structure VRemoveOut where
  sent : List Int
  newIdx : List Int
  vars : List Var
deriving DecidableEq

/-- Method `VarList.remove(self, vars)`.  First argument is the current
cached sequence `self.__vars`, second the handles passed by the caller. -/
def VarList.remove (vars : List Var) (toRemove : List Var) : Except PyErr VRemoveOut :=
  match removeCore (vars.map Var.idx) (toRemove.map Var.idx) with
  | .error e => .error e
  | .ok r => .ok ⟨r.sent, r.newIdx, (r.newIdx.filter (fun j => j != -1)).map Var.mk⟩

/-- Outcome of `ConstrList.remove`, mirror of `VRemoveOut`. -/
structure CRemoveOut where
  sent : List Int
  newIdx : List Int
  constrs : List Constr
deriving DecidableEq

/-- Method `ConstrList.remove(self, constrs)`, textually identical to
`VarList.remove` up to the entity kind. -/
def ConstrList.remove (constrs : List Constr) (toRemove : List Constr) :
    Except PyErr CRemoveOut :=
  match removeCore (constrs.map Constr.idx) (toRemove.map Constr.idx) with
  | .error e => .error e
  | .ok r => .ok ⟨r.sent, r.newIdx, (r.newIdx.filter (fun j => j != -1)).map Constr.mk⟩

/-- Outcome of `VarList.add`: the new cached sequence, the returned handle
and the engine call. -/
structure VAddOut where
  vars : List Var
  ret : Var
  call : AddVarCall
deriving DecidableEq

/-- Method `VarList.add(self, name, lb, ub, obj, var_type, column)`:
synthesize a name when none is given, force bounds `[0, 1]` for the binary
kind, create the handle at index `len(self.__vars)`, register it with the
engine and append it. -/
def VarList.add (vars : List Var) (name : String) (lb : F) (ub : F) (obj : F)
    (var_type : VarType) (column : Option Column) : VAddOut :=
  let name := if name = "" then "var(" ++ toString vars.length ++ ")" else name
  let lb := if var_type = BINARY then F.fin 0 else lb
  let ub := if var_type = BINARY then F.fin 1 else ub
  let new_var : Var := ⟨(vars.length : Int)⟩
  ⟨vars ++ [new_var], new_var,
    ⟨obj, lb, ub, var_type, column, name⟩⟩

/-- Outcome of `ConstrList.add`. -/
structure CAddOut where
  constrs : List Constr
  ret : Constr
  call : AddConstrCall
deriving DecidableEq

/-- Method `ConstrList.add(self, lin_expr, name)`. -/
def ConstrList.add (constrs : List Constr) (lin_expr : LinExpr) (name : String) : CAddOut :=
  let name := if name = "" then "constr(" ++ toString constrs.length ++ ")" else name
  let new_constr : Constr := ⟨(constrs.length : Int)⟩
  ⟨constrs ++ [new_constr], new_constr, ⟨lin_expr, name⟩⟩

/-- Integer-key case of `VarList.__getitem__`: plain Python list indexing
`self.__vars[key]` (string keys delegate to the model's name resolver and
are outside this embedding). -/
def VarList.getitemInt (vars : List Var) (key : Int) : Except PyErr Var :=
  pyGet vars key

/-- Integer-key case of `ConstrList.__getitem__`: `self.__constrs[key]`. -/
def ConstrList.getitemInt (constrs : List Constr) (key : Int) : Except PyErr Constr :=
  pyGet constrs key

/-- Method `VarList.update_vars(self, n_vars)`: rebuild the cache as `n`
fresh handles with indices `0..n-1`. -/
def VarList.update_vars (n_vars : Nat) : List Var :=
  (List.range n_vars).map (fun i => ⟨(i : Int)⟩)

/-- State of a `VVarList` view: the `[start, end)` window fields set by the
constructor (`end` is a Lean keyword, hence `vstart`/`vend`). -/
structure VVarList where
  vstart : Int
  vend : Int
deriving DecidableEq

/-- Constructor `VVarList.__init__(self, model, start=-1, end=-1)`:
`start == -1` means "whole current range" and resolves against the engine's
column count at construction time (`numCols`). -/
def VVarList.init (numCols : Nat) (start : Int) (stop : Int) : VVarList :=
  if start = -1 then ⟨0, (numCols : Int)⟩ else ⟨start, stop⟩

/-- Method `VVarList.__len__(self)`: `return self.__model.solver.num_cols()`
— the engine's column count at call time, whatever the window fields hold. -/
def VVarList.len (_vv : VVarList) (numColsNow : Nat) : Nat :=
  numColsNow

/-- Outcome of `VVarList.add`: the returned handle and the engine call; no
sequence is kept. -/
structure VVAddOut where
  ret : Var
  call : AddVarCall
deriving DecidableEq

/-- Method `VVarList.add(self, name, lb, ub, obj, var_type, column)`: same
as `VarList.add` except that both the synthesized name and the new handle's
index come from the engine's current column count (`len(self)` /
`solver.num_cols()`), and nothing is retained after the call. -/
def VVarList.add (numCols : Nat) (name : String) (lb : F) (ub : F) (obj : F)
    (var_type : VarType) (column : Option Column) : VVAddOut :=
  let name := if name = "" then "var(" ++ toString numCols ++ ")" else name
  let lb := if var_type = BINARY then F.fin 0 else lb
  let ub := if var_type = BINARY then F.fin 1 else ub
  let new_var : Var := ⟨(numCols : Int)⟩
  ⟨new_var, ⟨obj, lb, ub, var_type, column, name⟩⟩

/-- Lookup keys accepted by the view collections: a Python `str`, `int`, or
`slice` (attributes `start`/`stop`/`step`; step is never touched by the
source and is omitted).  Any other key shape raises, which the embedding
does not need to represent. -/
inductive PyKey
  | str (s : String)
  | int (i : Int)
  | slice (start stop : Int)
deriving DecidableEq

/-- Result of `VVarList.__getitem__`: delegation to the model's name
resolver, a fresh handle, or a sub-view. -/
inductive VGetResult
  | byName (s : String)
  | var (v : Var)
  | subview (vv : VVarList)
deriving DecidableEq

/-- Method `VVarList.__getitem__(self, key)`.  The slice branch evaluates
`VVarList(self.__model, key.start, key.end)`; a Python `slice` object has
attributes `start`, `stop`, `step` but no attribute `end`, so reading
`key.end` raises `AttributeError` before any sub-view is constructed.  The
int branch resolves a negative key as `key = self.__end - key`, checks
`key >= self.__end`, and returns `Var(self.__model, key + self.__start)`. -/
def VVarList.getitem (vv : VVarList) (key : PyKey) : Except PyErr VGetResult :=
  match key with
  | .str s => .ok (.byName s)
  | .slice _ _ => .error .attributeError
  | .int key0 =>
    let key1 := if key0 < 0 then vv.vend - key0 else key0
    if key1 ≥ vv.vend then .error .indexError
    else .ok (.var ⟨key1 + vv.vstart⟩)

/-- Result of `VConstrList.__getitem__`. -/
inductive CGetResult
  | byName (s : String)
  | constr (c : Constr)
deriving DecidableEq

/-- Method `VConstrList.__getitem__(self, key)`.  Integer keys return a
fresh handle with no range check at all.  The slice branch is
`return self[key]` — a self-call with the unchanged key, which recurses
until the interpreter's recursion limit (modelled by the fuel argument) is
exhausted and a `RecursionError` is raised. -/
def VConstrList.getitem : Nat → PyKey → Except PyErr CGetResult
  | _, .str s => .ok (.byName s)
  | _, .int i => .ok (.constr ⟨i⟩)
  | 0, .slice _ _ => .error .recursionError
  | fuel + 1, .slice a b => VConstrList.getitem fuel (.slice a b)

/-- The list `[0, 1, ..., n-1]` over `Int`: the index values of a caching
collection that satisfies the index invariant `sequence[i].index == i`. -/
def intRange (n : Nat) : List Int :=
  (List.range n).map (Nat.cast : Nat → Int)

/-- A cached variable sequence in invariant state: handle `i` holds index `i`. -/
def rangeVars (n : Nat) : List Var :=
  (intRange n).map Var.mk

/-- A cached constraint sequence in invariant state. -/
def rangeConstrs (n : Nat) : List Constr :=
  (intRange n).map Constr.mk

/-- Operations a user can issue against the caching variable collection. -/
inductive VOp
  | add (name : String) (lb : F) (ub : F) (obj : F) (var_type : VarType)
      (column : Option Column)
  | remove (toRemove : List Var)

/-- Whether a `VOp` is an `add`. -/
def VOp.isAdd : VOp → Bool
  | .add _ _ _ _ _ _ => true
  | .remove _ => false

/-- One user operation on the cached variable sequence.  A `remove` whose
marking loop raises `IndexError` aborts before any handle is mutated or the
sequence replaced, so the state is unchanged. -/
def VarList.step (st : List Var) : VOp → List Var
  | .add name lb ub obj vt col => (VarList.add st name lb ub obj vt col).vars
  | .remove hs =>
    match VarList.remove st hs with
    | .ok out => out.vars
    | .error _ => st

/-- Run a sequence of user operations from the empty collection. -/
def VarList.run (ops : List VOp) : List Var :=
  ops.foldl VarList.step []

/-- Operations a user can issue against the caching constraint collection. -/
inductive COp
  | add (lin_expr : LinExpr) (name : String)
  | remove (toRemove : List Constr)

/-- Whether a `COp` is an `add`. -/
def COp.isAdd : COp → Bool
  | .add _ _ => true
  | .remove _ => false

/-- One user operation on the cached constraint sequence. -/
def ConstrList.step (st : List Constr) : COp → List Constr
  | .add le name => (ConstrList.add st le name).constrs
  | .remove hs =>
    match ConstrList.remove st hs with
    | .ok out => out.constrs
    | .error _ => st

/-- Run a sequence of user operations from the empty collection. -/
def ConstrList.run (ops : List COp) : List Constr :=
  ops.foldl ConstrList.step []

/-! Basic lemmas about the embedded Python list primitives. -/

theorem pyGet_ok_of_nonneg {α : Type} (xs : List α) (i : Int) (d : α)
    (h0 : 0 ≤ i) (h1 : i < (xs.length : Int)) :
    pyGet xs i = .ok (xs.getD i.toNat d) := by
  have hneg : ¬ i < 0 := by omega
  have hlt : i.toNat < xs.length := by omega
  simp only [pyGet, hneg, if_false]
  rw [dif_pos ⟨h0, h1⟩]
  congr 1
  rw [List.getD_eq_getElem xs d hlt]
  simp [List.get_eq_getElem]

theorem pySet_ok_of_nonneg {α : Type} (xs : List α) (i : Int) (v : α)
    (h0 : 0 ≤ i) (h1 : i < (xs.length : Int)) :
    pySet xs i v = .ok (xs.set i.toNat v) := by
  have hneg : ¬ i < 0 := by omega
  simp only [pySet, hneg, if_false]
  rw [if_pos ⟨h0, h1⟩]

theorem pySet_ok_of_neg {α : Type} (xs : List α) (i : Int) (v : α)
    (h0 : i < 0) (h1 : 0 ≤ (xs.length : Int) + i) :
    pySet xs i v = .ok (xs.set ((xs.length : Int) + i).toNat v) := by
  simp only [pySet, h0, if_true]
  rw [if_pos ⟨h1, by omega⟩]

theorem pySet_length {α : Type} {xs ys : List α} {i : Int} {v : α}
    (h : pySet xs i v = .ok ys) : ys.length = xs.length := by
  simp only [pySet] at h
  set pos : Int := if i < 0 then (xs.length : Int) + i else i with hpos
  by_cases hc : 0 ≤ pos ∧ pos < (xs.length : Int)
  · rw [if_pos hc] at h
    injection h with h2
    subst h2
    simp
  · rw [if_neg hc] at h
    simp at h

theorem getD_set_self {α : Type} (xs : List α) (k : Nat) (v d : α)
    (h : k < xs.length) : (xs.set k v).getD k d = v := by
  rw [List.getD_eq_getElem _ d (by simpa using h), List.getElem_set]
  simp

theorem getD_set_ne {α : Type} (xs : List α) (k j : Nat) (v d : α)
    (hne : k ≠ j) : (xs.set k v).getD j d = xs.getD j d := by
  by_cases hj : j < xs.length
  · rw [List.getD_eq_getElem _ d (by simpa using hj), List.getD_eq_getElem _ d hj,
      List.getElem_set]
    simp [hne]
  · rw [List.getD_eq_default _ d (by simpa using Nat.le_of_not_lt hj),
      List.getD_eq_default _ d (Nat.le_of_not_lt hj)]

theorem getD_replicate_one (n j : Nat) (h : j < n) :
    (List.replicate n (1 : Nat)).getD j 0 = 1 := by
  rw [List.getD_eq_getElem _ 0 (by simpa using h), List.getElem_replicate]

theorem markIv_length : ∀ (vl : List Int) (iv iv2 : List Nat),
    markIv iv vl = .ok iv2 → iv2.length = iv.length := by
  intro vl
  induction vl with
  | nil =>
    intro iv iv2 h
    simp only [markIv] at h
    injection h with h2
    rw [h2]
  | cons i rest ih =>
    intro iv iv2 h
    simp only [markIv] at h
    cases hp : pySet iv i 0 with
    | error e =>
      rw [hp] at h
      exact Except.noConfusion h
    | ok iv3 =>
      rw [hp] at h
      rw [ih iv3 iv2 h, pySet_length hp]

theorem markIv_ok : ∀ (vl : List Int) (iv : List Nat),
    (∀ i ∈ vl, 0 ≤ i ∧ i < (iv.length : Int)) →
    ∃ iv2, markIv iv vl = .ok iv2 ∧ iv2.length = iv.length ∧
      ∀ j, j < iv.length →
        iv2.getD j 0 = if (j : Int) ∈ vl then 0 else iv.getD j 0 := by
  intro vl
  induction vl with
  | nil =>
    intro iv _
    exact ⟨iv, rfl, rfl, fun j _ => by simp⟩
  | cons i rest ih =>
    intro iv hmem
    obtain ⟨h0, h1⟩ := hmem i (List.mem_cons_self i rest)
    have hp := pySet_ok_of_nonneg iv i 0 h0 h1
    have hlen : (iv.set i.toNat 0).length = iv.length := by simp
    obtain ⟨iv2, hm, hl, hchar⟩ := ih (iv.set i.toNat 0) (by
      intro x hx
      have hx2 := hmem x (List.mem_cons_of_mem i hx)
      rw [hlen]
      exact hx2)
    refine ⟨iv2, ?_, ?_, ?_⟩
    · simp only [markIv]
      rw [hp]
      exact hm
    · rw [hl, hlen]
    · intro j hj
      rw [hchar j (by rw [hlen]; exact hj)]
      by_cases hr : (j : Int) ∈ rest
      · rw [if_pos hr, if_pos (List.mem_cons_of_mem i hr)]
      · by_cases hji : (j : Int) = i
        · rw [if_neg hr, if_pos (by rw [hji]; exact List.mem_cons_self i rest)]
          have hk : i.toNat = j := by omega
          subst hk
          exact getD_set_self iv i.toNat 0 0 (by omega)
        · have hk : i.toNat ≠ j := by omega
          rw [if_neg hr, if_neg (by simp [List.mem_cons, hji, hr])]
          exact getD_set_ne _ _ _ _ _ hk

/-! Lemmas about `intRange` and the invariant-state sequences. -/

theorem intRange_length (n : Nat) : (intRange n).length = n := by
  unfold intRange
  rw [List.length_map, List.length_range]

theorem mem_intRange {a : Int} {n : Nat} :
    a ∈ intRange n ↔ 0 ≤ a ∧ a < (n : Int) := by
  simp only [intRange, List.mem_map, List.mem_range]
  constructor
  · rintro ⟨j, hj, rfl⟩
    omega
  · rintro ⟨h0, h1⟩
    exact ⟨a.toNat, by omega, by omega⟩

theorem intRange_succ (n : Nat) : intRange (n + 1) = intRange n ++ [(n : Int)] := by
  unfold intRange
  rw [List.range_succ, List.map_append]
  rfl

theorem intRange_getD {j n : Nat} (h : j < n) : (intRange n).getD j 0 = (j : Int) := by
  rw [List.getD_eq_getElem _ _ (by rw [intRange_length]; exact h)]
  unfold intRange
  rw [List.getElem_map, List.getElem_range]

theorem intRange_nodup (n : Nat) : (intRange n).Nodup := by
  unfold intRange
  refine List.Nodup.map ?_ (List.nodup_range n)
  intro a b h
  omega

theorem intRange_filter_ne_neg_one (n : Nat) :
    (intRange n).filter (fun j => j != -1) = intRange n := by
  rw [List.filter_eq_self]
  intro a ha
  have h2 := mem_intRange.mp ha
  simp only [bne_iff_ne, ne_eq, decide_eq_true_eq]
  omega

theorem rangeVars_map_idx (n : Nat) : (rangeVars n).map Var.idx = intRange n := by
  unfold rangeVars
  rw [List.map_map]
  exact List.map_id _

theorem rangeConstrs_map_idx (n : Nat) : (rangeConstrs n).map Constr.idx = intRange n := by
  unfold rangeConstrs
  rw [List.map_map]
  exact List.map_id _

theorem rangeVars_succ (n : Nat) :
    rangeVars (n + 1) = rangeVars n ++ [⟨(n : Int)⟩] := by
  simp [rangeVars, intRange_succ]

theorem rangeConstrs_succ (n : Nat) :
    rangeConstrs (n + 1) = rangeConstrs n ++ [⟨(n : Int)⟩] := by
  simp [rangeConstrs, intRange_succ]

theorem rangeVars_length (n : Nat) : (rangeVars n).length = n := by
  simp [rangeVars, intRange_length]

theorem rangeConstrs_length (n : Nat) : (rangeConstrs n).length = n := by
  simp [rangeConstrs, intRange_length]

/-! Lemmas about the reindexing loop. -/

theorem reindexLoop_eq (iv : List Nat) :
    ∀ (vl : List Int) (c : Int),
    (∀ v ∈ vl, 0 ≤ v ∧ v < (iv.length : Int)) →
    reindexLoop iv vl c = .ok (reindexPure (fun v => iv.getD v.toNat 0) vl c) := by
  intro vl
  induction vl with
  | nil =>
    intro c _
    rfl
  | cons v rest ih =>
    intro c hmem
    obtain ⟨h0, h1⟩ := hmem v (List.mem_cons_self v rest)
    have hg := pyGet_ok_of_nonneg iv v 0 h0 h1
    have hrest : ∀ x ∈ rest, 0 ≤ x ∧ x < (iv.length : Int) :=
      fun x hx => hmem x (List.mem_cons_of_mem v hx)
    by_cases hb : iv.getD v.toNat 0 = 0
    · simp only [reindexLoop, hg, reindexPure]
      rw [if_pos hb, if_pos hb, ih c hrest]
    · simp only [reindexLoop, hg, reindexPure]
      rw [if_neg hb, if_neg hb, ih (c + 1) hrest]

/-- The counter sequence `[c, c+1, ..., c+k-1]`. -/
theorem counterList_succ (c : Int) (k : Nat) :
    (List.range (k + 1)).map (fun (j : Nat) => c + (j : Int))
      = c :: (List.range k).map (fun (j : Nat) => (c + 1) + (j : Int)) := by
  rw [List.range_succ_eq_map]
  simp only [List.map_cons, List.map_map, Nat.cast_zero, add_zero]
  congr 1
  refine List.map_congr_left ?_
  intro j _
  simp only [Function.comp_apply, Nat.succ_eq_add_one]
  push_cast
  ring

theorem reindexPure_length (f : Int → Nat) :
    ∀ (vl : List Int) (c : Int), (reindexPure f vl c).length = vl.length := by
  intro vl
  induction vl with
  | nil => intro c; rfl
  | cons v rest ih =>
    intro c
    simp only [reindexPure]
    split <;> simp [ih]

theorem reindexPure_getD (f : Int → Nat) :
    ∀ (vl : List Int) (c : Int) (j : Nat), 0 ≤ c → j < vl.length →
    ((reindexPure f vl c).getD j 0 = -1 ↔ f (vl.getD j 0) = 0) := by
  intro vl
  induction vl with
  | nil =>
    intro c j _ hj
    simp at hj
  | cons v rest ih =>
    intro c j hc hj
    cases j with
    | zero =>
      simp only [reindexPure, List.getD_cons_zero]
      by_cases hb : f v = 0
      · rw [if_pos hb, List.getD_cons_zero]
        simp [hb]
      · rw [if_neg hb, List.getD_cons_zero]
        constructor
        · intro h
          omega
        · intro h
          exact absurd h hb
    | succ j2 =>
      simp only [reindexPure, List.getD_cons_succ]
      by_cases hb : f v = 0
      · rw [if_pos hb, List.getD_cons_succ]
        exact ih c j2 hc (by simpa using hj)
      · rw [if_neg hb, List.getD_cons_succ]
        exact ih (c + 1) j2 (by omega) (by simpa using hj)

theorem reindexPure_filter (f : Int → Nat) :
    ∀ (vl : List Int) (c : Int), 0 ≤ c →
    (reindexPure f vl c).filter (fun j => j != -1)
      = (List.range (vl.countP (fun v => f v != 0))).map (fun (j : Nat) => c + (j : Int)) := by
  intro vl
  induction vl with
  | nil =>
    intro c _
    rfl
  | cons v rest ih =>
    intro c hc
    by_cases hb : f v = 0
    · simp only [reindexPure, if_pos hb]
      rw [List.filter_cons_of_neg (by simp), List.countP_cons_of_neg _ _ (by simp [hb])]
      exact ih c hc
    · simp only [reindexPure, if_neg hb]
      rw [List.filter_cons_of_pos (by simp only [bne_iff_ne, ne_eq, decide_eq_true_eq]; omega),
        List.countP_cons_of_pos _ _ (by simp [hb]),
        ih (c + 1) (by omega), counterList_succ]

theorem reindexPure_allKept (f : Int → Nat) :
    ∀ (vl : List Int), (∀ v ∈ vl, f v ≠ 0) → ∀ (c : Int),
    reindexPure f vl c = (List.range vl.length).map (fun (j : Nat) => c + (j : Int)) := by
  intro vl
  induction vl with
  | nil =>
    intro _ c
    rfl
  | cons v rest ih =>
    intro hmem c
    have hb : ¬ f v = 0 := hmem v (List.mem_cons_self v rest)
    simp only [reindexPure, if_neg hb, List.length_cons]
    rw [ih (fun x hx => hmem x (List.mem_cons_of_mem v hx)) (c + 1), counterList_succ]

theorem reindexPure_append (f : Int → Nat) :
    ∀ (l1 l2 : List Int) (c : Int),
    reindexPure f (l1 ++ l2) c
      = reindexPure f l1 c
        ++ reindexPure f l2 (c + (l1.countP (fun v => f v != 0) : Int)) := by
  intro l1
  induction l1 with
  | nil =>
    intro l2 c
    simp [reindexPure]
  | cons v rest ih =>
    intro l2 c
    rw [List.cons_append]
    by_cases hb : f v = 0
    · simp only [reindexPure, if_pos hb, List.cons_append]
      rw [ih, List.countP_cons_of_neg _ _ (by simp [hb])]
    · simp only [reindexPure, if_neg hb, List.cons_append]
      rw [ih, List.countP_cons_of_pos _ _ (by simp [hb])]
      have harith : c + ((rest.countP (fun v => f v != 0) + 1 : Nat) : Int)
          = (c + 1) + (rest.countP (fun v => f v != 0) : Int) := by
        push_cast
        ring
      rw [harith]

theorem counterList_eq_intRange (k : Nat) :
    (List.range k).map (fun (j : Nat) => (0 : Int) + (j : Int)) = intRange k := by
  unfold intRange
  refine List.map_congr_left ?_
  intro a _
  omega

theorem countP_neg_add_countP {α : Type} (p : α → Bool) :
    ∀ (L : List α), L.countP (fun a => !(p a)) + L.countP p = L.length := by
  intro L
  induction L with
  | nil => rfl
  | cons a L ih =>
    cases hpa : p a
    · rw [List.countP_cons_of_pos (fun a => !(p a)) _ (by simp [hpa]),
        List.countP_cons_of_neg _ _ (by simp [hpa]), List.length_cons]
      omega
    · rw [List.countP_cons_of_neg (fun a => !(p a)) _ (by simp [hpa]),
        List.countP_cons_of_pos _ _ (by simp [hpa]), List.length_cons]
      omega

theorem countP_mem_eq_length {S L : List Int} (hndS : S.Nodup) (hndL : L.Nodup)
    (hsub : ∀ s ∈ S, s ∈ L) :
    L.countP (fun v => decide (v ∈ S)) = S.length := by
  rw [List.countP_eq_length_filter]
  have hperm : (L.filter (fun v => decide (v ∈ S))).Perm S := by
    rw [List.perm_ext_iff_of_nodup (List.Nodup.filter _ hndL) hndS]
    intro a
    simp only [List.mem_filter, decide_eq_true_eq]
    constructor
    · rintro ⟨_, h⟩
      exact h
    · intro h
      exact ⟨hsub a h, h⟩
  exact hperm.length_eq

/-- Master specification of the shared removal algorithm, run from a
collection in invariant state on a duplicate-free list of live indices. -/
theorem removeCore_spec (n : Nat) (Sidx : List Int) (hnd : Sidx.Nodup)
    (hlive : ∀ s ∈ Sidx, 0 ≤ s ∧ s < (n : Int)) :
    ∃ r, removeCore (intRange n) Sidx = .ok r ∧
      r.sent = Sidx.insertionSort (· ≤ ·) ∧
      r.newIdx.length = n ∧
      (∀ j, j < n → (r.newIdx.getD j 0 = -1 ↔ (j : Int) ∈ Sidx)) ∧
      r.newIdx.filter (fun j => j != -1) = intRange (n - Sidx.length) ∧
      Sidx.length ≤ n := by
  have hmemv : ∀ i ∈ Sidx.insertionSort (· ≤ ·),
      0 ≤ i ∧ i < ((List.replicate n (1 : Nat)).length : Int) := by
    intro i hi
    rw [List.length_replicate]
    exact hlive i ((List.mem_insertionSort _).mp hi)
  obtain ⟨iv2, hm, hl, hchar⟩ := markIv_ok (Sidx.insertionSort (· ≤ ·))
    (List.replicate n (1 : Nat)) hmemv
  have hlen2 : iv2.length = n := by rw [hl, List.length_replicate]
  have hf : ∀ j, j < n → iv2.getD j 0 = if (j : Int) ∈ Sidx then 0 else 1 := by
    intro j hj
    rw [hchar j (by rw [List.length_replicate]; exact hj)]
    rw [getD_replicate_one n j hj]
    simp only [List.mem_insertionSort]
  have hreads : ∀ v ∈ intRange n, 0 ≤ v ∧ v < (iv2.length : Int) := by
    intro v hv
    rw [hlen2]
    exact mem_intRange.mp hv
  have hloop := reindexLoop_eq iv2 (intRange n) 0 hreads
  have hSlen : Sidx.length ≤ n := by
    have h2 : (intRange n).countP (fun v => decide (v ∈ Sidx)) = Sidx.length :=
      countP_mem_eq_length hnd (intRange_nodup n) (fun s hs => mem_intRange.mpr (hlive s hs))
    have h3 : (intRange n).countP (fun v => decide (v ∈ Sidx)) ≤ (intRange n).length :=
      List.countP_le_length _
    rw [h2, intRange_length] at h3
    exact h3
  refine ⟨⟨Sidx.insertionSort (· ≤ ·),
    reindexPure (fun v => iv2.getD v.toNat 0) (intRange n) 0⟩, ?_, rfl, ?_, ?_, ?_, hSlen⟩
  · simp only [removeCore, intRange_length, hm, hloop]
  · rw [reindexPure_length, intRange_length]
  · intro j hj
    rw [reindexPure_getD _ (intRange n) 0 j le_rfl (by rw [intRange_length]; exact hj)]
    rw [intRange_getD hj, Int.toNat_natCast, hf j hj]
    by_cases hjS : (j : Int) ∈ Sidx
    · simp [hjS]
    · simp [hjS]
  · rw [reindexPure_filter _ (intRange n) 0 le_rfl]
    have hcongr : (intRange n).countP (fun v => iv2.getD v.toNat 0 != 0)
        = (intRange n).countP (fun v => !(decide (v ∈ Sidx))) := by
      refine List.countP_congr ?_
      intro v hv
      obtain ⟨h0, h1⟩ := mem_intRange.mp hv
      have hj : v.toNat < n := by omega
      have hv2 : ((v.toNat : Nat) : Int) = v := by omega
      rw [hf v.toNat hj, hv2]
      by_cases hvS : v ∈ Sidx
      · simp [hvS]
      · simp [hvS]
    rw [hcongr]
    have h1 := countP_neg_add_countP (fun v => decide (v ∈ Sidx)) (intRange n)
    have h2 : (intRange n).countP (fun v => decide (v ∈ Sidx)) = Sidx.length :=
      countP_mem_eq_length hnd (intRange_nodup n) (fun s hs => mem_intRange.mpr (hlive s hs))
    rw [h2, intRange_length] at h1
    have h3 : (intRange n).countP (fun v => !(decide (v ∈ Sidx))) = n - Sidx.length := by
      omega
    rw [h3]
    exact counterList_eq_intRange (n - Sidx.length)

theorem varRemove_ok (vars toRemove : List Var) (r : RemoveCoreOut)
    (h : removeCore (vars.map Var.idx) (toRemove.map Var.idx) = .ok r) :
    VarList.remove vars toRemove
      = .ok ⟨r.sent, r.newIdx, (r.newIdx.filter (fun j => j != -1)).map Var.mk⟩ := by
  unfold VarList.remove
  rw [h]

theorem constrRemove_ok (constrs toRemove : List Constr) (r : RemoveCoreOut)
    (h : removeCore (constrs.map Constr.idx) (toRemove.map Constr.idx) = .ok r) :
    ConstrList.remove constrs toRemove
      = .ok ⟨r.sent, r.newIdx, (r.newIdx.filter (fun j => j != -1)).map Constr.mk⟩ := by
  unfold ConstrList.remove
  rw [h]

/-- C1: on a caching collection (variables or constraints) holding `n` live
handles in invariant state, removing a duplicate-free set `S` of live
handles succeeds; afterwards every handle of `S` carries index `-1`, a
cached handle is detached exactly when its index was in `S`, the surviving
handles form the compacted sequence `0, 1, ..., n - |S| - 1` in their
original relative order, and the length is `n - |S|`.  In the concrete
instance, adding five variables and removing the handles at indices 1 and 3
leaves survivors at indices 0, 1, 2, detaches the removed pair, and reports
length 3. -/
theorem remove_compacts (n : Nat) (S : List Var)
    (hnd : (S.map Var.idx).Nodup)
    (hlive : ∀ v ∈ S, 0 ≤ v.idx ∧ v.idx < (n : Int)) :
    (∃ out, VarList.remove (rangeVars n) S = .ok out ∧
      out.newIdx.length = n ∧
      (∀ v ∈ S, out.newIdx.getD v.idx.toNat 0 = -1) ∧
      (∀ j, j < n → (out.newIdx.getD j 0 = -1 ↔ (j : Int) ∈ S.map Var.idx)) ∧
      out.vars = rangeVars (n - S.length) ∧
      out.vars.length = n - S.length) ∧
    (∃ out2, ConstrList.remove (rangeConstrs n) (S.map (fun v => Constr.mk v.idx))
        = .ok out2 ∧
      (∀ j, j < n → (out2.newIdx.getD j 0 = -1 ↔ (j : Int) ∈ S.map Var.idx)) ∧
      out2.constrs = rangeConstrs (n - S.length) ∧
      out2.constrs.length = n - S.length) ∧
    VarList.remove (rangeVars 5) [⟨1⟩, ⟨3⟩]
      = .ok ⟨[1, 3], [0, -1, 1, -1, 2], [⟨0⟩, ⟨1⟩, ⟨2⟩]⟩ := by
  have hliveIdx : ∀ s ∈ S.map Var.idx, 0 ≤ s ∧ s < (n : Int) := by
    intro s hs
    obtain ⟨v, hv, rfl⟩ := List.mem_map.mp hs
    exact hlive v hv
  obtain ⟨r, hcore, hsent, hlen, hgetD, hfilter, hSle⟩ :=
    removeCore_spec n (S.map Var.idx) hnd hliveIdx
  have hrem := varRemove_ok (rangeVars n) S r
    (by rw [rangeVars_map_idx]; exact hcore)
  have hremC := constrRemove_ok (rangeConstrs n)
    (S.map (fun v => Constr.mk v.idx)) r
    (by rw [rangeConstrs_map_idx, List.map_map]; exact hcore)
  have hfiltLen : (S.map Var.idx).length = S.length := List.length_map S Var.idx
  refine ⟨⟨_, hrem, hlen, ?_, hgetD, ?_, ?_⟩, ⟨_, hremC, hgetD, ?_, ?_⟩, by rfl⟩
  · intro v hv
    have hvr := hlive v hv
    have hc : ((v.idx.toNat : Nat) : Int) = v.idx := by omega
    exact (hgetD v.idx.toNat (by omega)).mpr
      (by rw [hc]; exact List.mem_map.mpr ⟨v, hv, rfl⟩)
  · show (r.newIdx.filter (fun j => j != -1)).map Var.mk = rangeVars (n - S.length)
    rw [hfilter, hfiltLen]
    rfl
  · show ((r.newIdx.filter (fun j => j != -1)).map Var.mk).length = n - S.length
    rw [hfilter, hfiltLen]
    exact rangeVars_length (n - S.length)
  · show (r.newIdx.filter (fun j => j != -1)).map Constr.mk = rangeConstrs (n - S.length)
    rw [hfilter, hfiltLen]
    rfl
  · show ((r.newIdx.filter (fun j => j != -1)).map Constr.mk).length = n - S.length
    rw [hfilter, hfiltLen]
    exact rangeConstrs_length (n - S.length)

/-- Witness for `remove_compacts` at the concrete instance of the claim:
five variables, removal of the handles at indices 1 and 3. -/
theorem remove_compacts_witness :
    ∃ out, VarList.remove (rangeVars 5) [⟨1⟩, ⟨3⟩] = .ok out ∧
      out.vars = rangeVars 3 ∧ out.vars.length = 3 := by
  obtain ⟨⟨out, h1, _, _, _, h5, h6⟩, _, _⟩ :=
    remove_compacts 5 [⟨1⟩, ⟨3⟩] (by decide) (by decide)
  exact ⟨out, h1, h5, h6⟩

theorem removeCore_nil (n : Nat) :
    removeCore (intRange n) [] = .ok ⟨[], intRange n⟩ := by
  have hreads : ∀ v ∈ intRange n,
      0 ≤ v ∧ v < ((List.replicate n (1 : Nat)).length : Int) := by
    intro v hv
    rw [List.length_replicate]
    exact mem_intRange.mp hv
  have hloop := reindexLoop_eq (List.replicate n 1) (intRange n) 0 hreads
  have hkept : ∀ v ∈ intRange n,
      (fun v => (List.replicate n (1 : Nat)).getD v.toNat 0) v ≠ 0 := by
    intro v hv
    obtain ⟨h0, h1⟩ := mem_intRange.mp hv
    simp only
    rw [getD_replicate_one n v.toNat (by omega)]
    omega
  have hall := reindexPure_allKept _ (intRange n) hkept 0
  have hnil : (([] : List Int).insertionSort (· ≤ ·)) = [] := rfl
  simp only [removeCore, intRange_length, hnil, markIv, hloop]
  rw [hall, intRange_length, counterList_eq_intRange n]

/-- C9: removing the empty set of handles from a caching collection in
invariant state leaves every cached index unchanged and the length equal to
`n`; the engine receives the empty position list. -/
theorem remove_empty_identity (n : Nat) :
    VarList.remove (rangeVars n) [] = .ok ⟨[], intRange n, rangeVars n⟩ ∧
    ConstrList.remove (rangeConstrs n) [] = .ok ⟨[], intRange n, rangeConstrs n⟩ := by
  have hcore := removeCore_nil n
  have h1 := varRemove_ok (rangeVars n) [] ⟨[], intRange n⟩
    (by rw [rangeVars_map_idx]; exact hcore)
  have h2 := constrRemove_ok (rangeConstrs n) [] ⟨[], intRange n⟩
    (by rw [rangeConstrs_map_idx]; exact hcore)
  constructor
  · rw [h1]
    show Except.ok (VRemoveOut.mk [] (intRange n)
      (((intRange n).filter (fun j => j != -1)).map Var.mk)) = _
    rw [intRange_filter_ne_neg_one]
    rfl
  · rw [h2]
    show Except.ok (CRemoveOut.mk [] (intRange n)
      (((intRange n).filter (fun j => j != -1)).map Constr.mk)) = _
    rw [intRange_filter_ne_neg_one]
    rfl

theorem filter_append_neg_one (k : Nat) :
    ((intRange k ++ [-1]).filter (fun j => j != -1)) = intRange k := by
  rw [List.filter_append, intRange_filter_ne_neg_one,
    List.filter_cons_of_neg (by simp), List.filter_nil, List.append_nil]

theorem removeCore_neg_one (n : Nat) (h : 1 ≤ n) :
    removeCore (intRange n) [-1] = .ok ⟨[-1], intRange (n - 1) ++ [-1]⟩ := by
  obtain ⟨m, rfl⟩ : ∃ m, n = m + 1 := ⟨n - 1, by omega⟩
  have hidx : ((((List.replicate (m + 1) (1 : Nat)).length : Int)) + (-1)).toNat = m := by
    rw [List.length_replicate]
    omega
  have hset : pySet (List.replicate (m + 1) (1 : Nat)) (-1) 0
      = .ok ((List.replicate (m + 1) (1 : Nat)).set m 0) := by
    have hraw := pySet_ok_of_neg (List.replicate (m + 1) (1 : Nat)) (-1) 0 (by omega)
      (by rw [List.length_replicate]; omega)
    rw [hidx] at hraw
    exact hraw
  have hmark : markIv (List.replicate (m + 1) (1 : Nat)) [-1]
      = .ok ((List.replicate (m + 1) (1 : Nat)).set m 0) := by
    simp only [markIv, hset]
  have hlenm : ((List.replicate (m + 1) (1 : Nat)).set m 0).length = m + 1 := by
    rw [List.length_set, List.length_replicate]
  have hreads : ∀ v ∈ intRange (m + 1),
      0 ≤ v ∧ v < ((((List.replicate (m + 1) (1 : Nat)).set m 0)).length : Int) := by
    intro v hv
    rw [hlenm]
    exact mem_intRange.mp hv
  have hloop := reindexLoop_eq ((List.replicate (m + 1) (1 : Nat)).set m 0)
    (intRange (m + 1)) 0 hreads
  have hkept : ∀ v ∈ intRange m,
      (fun v => ((List.replicate (m + 1) (1 : Nat)).set m 0).getD v.toNat 0) v ≠ 0 := by
    intro v hv
    obtain ⟨h0, h1⟩ := mem_intRange.mp hv
    simp only
    rw [getD_set_ne _ _ _ _ _ (by omega), getD_replicate_one (m + 1) v.toNat (by omega)]
    omega
  have hall := reindexPure_allKept _ (intRange m) hkept 0
  have hfm : ((List.replicate (m + 1) (1 : Nat)).set m 0).getD ((m : Int)).toNat 0 = 0 := by
    rw [Int.toNat_natCast]
    exact getD_set_self _ _ _ _ (by rw [List.length_replicate]; omega)
  have hpure : reindexPure
      (fun v => ((List.replicate (m + 1) (1 : Nat)).set m 0).getD v.toNat 0)
      (intRange (m + 1)) 0 = intRange m ++ [-1] := by
    rw [intRange_succ, reindexPure_append, hall, intRange_length, counterList_eq_intRange m]
    congr 1
    simp only [reindexPure]
    rw [if_pos hfm]
  have hs1 : (([-1] : List Int).insertionSort (· ≤ ·)) = [-1] := rfl
  simp only [removeCore, intRange_length, hs1, hmark, hloop, hpure]
  rfl

/-- C10: passing a single detached handle (index already `-1`) to `remove`
on a caching collection of `n ≥ 1` handles in invariant state is not a
no-op: the sentinel position `-1` itself is sent to the engine's batch
removal, the bitmap slot at Python position `-1` (the last slot, `n - 1`)
is marked removed, so the last live entity is detached and dropped and the
length becomes `n - 1`. -/
theorem remove_detached_drops_last (n : Nat) (h : 1 ≤ n) :
    VarList.remove (rangeVars n) [⟨-1⟩]
      = .ok ⟨[-1], intRange (n - 1) ++ [-1], rangeVars (n - 1)⟩ ∧
    ConstrList.remove (rangeConstrs n) [⟨-1⟩]
      = .ok ⟨[-1], intRange (n - 1) ++ [-1], rangeConstrs (n - 1)⟩ := by
  have hcore := removeCore_neg_one n h
  have h1 := varRemove_ok (rangeVars n) [⟨-1⟩] ⟨[-1], intRange (n - 1) ++ [-1]⟩
    (by rw [rangeVars_map_idx]; exact hcore)
  have h2 := constrRemove_ok (rangeConstrs n) [⟨-1⟩] ⟨[-1], intRange (n - 1) ++ [-1]⟩
    (by rw [rangeConstrs_map_idx]; exact hcore)
  constructor
  · rw [h1]
    show Except.ok (VRemoveOut.mk [-1] (intRange (n - 1) ++ [-1])
      (((intRange (n - 1) ++ [-1]).filter (fun j => j != -1)).map Var.mk)) = _
    rw [filter_append_neg_one]
    rfl
  · rw [h2]
    show Except.ok (CRemoveOut.mk [-1] (intRange (n - 1) ++ [-1])
      (((intRange (n - 1) ++ [-1]).filter (fun j => j != -1)).map Constr.mk)) = _
    rw [filter_append_neg_one]
    rfl

/-- Witness for `remove_detached_drops_last` at `n = 3`: removing one
detached handle from three cached variables drops the last one. -/
theorem remove_detached_drops_last_witness :
    VarList.remove (rangeVars 3) [⟨-1⟩]
      = .ok ⟨[-1], intRange 2 ++ [-1], rangeVars 2⟩ :=
  (remove_detached_drops_last 3 (by decide)).1

theorem removeCore_ok_filter {n : Nat} {hs : List Int} {r : RemoveCoreOut}
    (h : removeCore (intRange n) hs = .ok r) :
    ∃ k, r.newIdx.filter (fun j => j != -1) = intRange k := by
  simp only [removeCore, intRange_length] at h
  cases hm : markIv (List.replicate n 1) (hs.insertionSort (· ≤ ·)) with
  | error e =>
    simp only [hm] at h
    exact Except.noConfusion h
  | ok iv =>
    simp only [hm] at h
    have hlen : iv.length = n := by
      rw [markIv_length _ _ _ hm, List.length_replicate]
    have hreads : ∀ v ∈ intRange n, 0 ≤ v ∧ v < (iv.length : Int) := by
      intro v hv
      rw [hlen]
      exact mem_intRange.mp hv
    simp only [reindexLoop_eq iv (intRange n) 0 hreads] at h
    injection h with h2
    subst h2
    refine ⟨(intRange n).countP
      (fun v => (fun v => iv.getD v.toNat 0) v != 0), ?_⟩
    show (reindexPure (fun v => iv.getD v.toNat 0) (intRange n) 0).filter
      (fun j => j != -1) = _
    rw [reindexPure_filter _ _ 0 le_rfl]
    exact counterList_eq_intRange _

theorem varStep_inv (st : List Var) (op : VOp)
    (hinv : st = rangeVars st.length) :
    VarList.step st op = rangeVars (VarList.step st op).length := by
  cases op with
  | add name lb ub obj vt col =>
    have hadd : VarList.step st (.add name lb ub obj vt col)
        = st ++ [⟨(st.length : Int)⟩] := rfl
    have hl : (st ++ [(⟨(st.length : Int)⟩ : Var)]).length = st.length + 1 := by
      simp
    rw [hadd, hl, rangeVars_succ]
    exact congrArg (fun l => l ++ [Var.mk (st.length : Int)]) hinv
  | remove hs =>
    cases hr : VarList.remove st hs with
    | error e =>
      have hstep : VarList.step st (.remove hs) = st := by
        simp only [VarList.step, hr]
      rw [hstep]
      exact hinv
    | ok out =>
      have hstep : VarList.step st (.remove hs) = out.vars := by
        simp only [VarList.step, hr]
      rw [hstep]
      unfold VarList.remove at hr
      cases hc : removeCore (st.map Var.idx) (hs.map Var.idx) with
      | error e =>
        rw [hc] at hr
        exact absurd hr (by simp)
      | ok r =>
        rw [hc] at hr
        injection hr with hr2
        have hmapidx : st.map Var.idx = intRange st.length := by
          conv_lhs => rw [hinv]
          rw [rangeVars_map_idx]
        rw [hmapidx] at hc
        obtain ⟨k, hk⟩ := removeCore_ok_filter hc
        rw [← hr2]
        show (r.newIdx.filter (fun j => j != -1)).map Var.mk = _
        rw [hk]
        have hklen : ((intRange k).map Var.mk).length = k := by
          rw [List.length_map, intRange_length]
        rw [hklen]
        rfl

theorem constrStep_inv (st : List Constr) (op : COp)
    (hinv : st = rangeConstrs st.length) :
    ConstrList.step st op = rangeConstrs (ConstrList.step st op).length := by
  cases op with
  | add le name =>
    have hadd : ConstrList.step st (.add le name)
        = st ++ [⟨(st.length : Int)⟩] := rfl
    have hl : (st ++ [(⟨(st.length : Int)⟩ : Constr)]).length = st.length + 1 := by
      simp
    rw [hadd, hl, rangeConstrs_succ]
    exact congrArg (fun l => l ++ [Constr.mk (st.length : Int)]) hinv
  | remove hs =>
    cases hr : ConstrList.remove st hs with
    | error e =>
      have hstep : ConstrList.step st (.remove hs) = st := by
        simp only [ConstrList.step, hr]
      rw [hstep]
      exact hinv
    | ok out =>
      have hstep : ConstrList.step st (.remove hs) = out.constrs := by
        simp only [ConstrList.step, hr]
      rw [hstep]
      unfold ConstrList.remove at hr
      cases hc : removeCore (st.map Constr.idx) (hs.map Constr.idx) with
      | error e =>
        rw [hc] at hr
        exact absurd hr (by simp)
      | ok r =>
        rw [hc] at hr
        injection hr with hr2
        have hmapidx : st.map Constr.idx = intRange st.length := by
          conv_lhs => rw [hinv]
          rw [rangeConstrs_map_idx]
        rw [hmapidx] at hc
        obtain ⟨k, hk⟩ := removeCore_ok_filter hc
        rw [← hr2]
        show (r.newIdx.filter (fun j => j != -1)).map Constr.mk = _
        rw [hk]
        have hklen : ((intRange k).map Constr.mk).length = k := by
          rw [List.length_map, intRange_length]
        rw [hklen]
        rfl

theorem varRun_inv_aux : ∀ (ops : List VOp) (st : List Var),
    st = rangeVars st.length →
    List.foldl VarList.step st ops
      = rangeVars (List.foldl VarList.step st ops).length := by
  intro ops
  induction ops with
  | nil =>
    intro st h
    exact h
  | cons op rest ih =>
    intro st h
    rw [List.foldl_cons]
    exact ih _ (varStep_inv st op h)

theorem constrRun_inv_aux : ∀ (ops : List COp) (st : List Constr),
    st = rangeConstrs st.length →
    List.foldl ConstrList.step st ops
      = rangeConstrs (List.foldl ConstrList.step st ops).length := by
  intro ops
  induction ops with
  | nil =>
    intro st h
    exact h
  | cons op rest ih =>
    intro st h
    rw [List.foldl_cons]
    exact ih _ (constrStep_inv st op h)

theorem varRun_length_adds : ∀ (ops : List VOp) (st : List Var),
    (∀ op ∈ ops, op.isAdd = true) →
    (List.foldl VarList.step st ops).length = st.length + ops.length := by
  intro ops
  induction ops with
  | nil =>
    intro st _
    simp
  | cons op rest ih =>
    intro st hall
    rw [List.foldl_cons]
    cases op with
    | add name lb ub obj vt col =>
      rw [ih _ (fun o ho => hall o (List.mem_cons_of_mem _ ho))]
      have hlen : (VarList.step st (.add name lb ub obj vt col)).length
          = st.length + 1 := by
        show (st ++ [(⟨(st.length : Int)⟩ : Var)]).length = st.length + 1
        simp
      rw [hlen, List.length_cons]
      omega
    | remove hs =>
      have := hall _ (List.mem_cons_self _ _)
      simp [VOp.isAdd] at this

theorem constrRun_length_adds : ∀ (ops : List COp) (st : List Constr),
    (∀ op ∈ ops, op.isAdd = true) →
    (List.foldl ConstrList.step st ops).length = st.length + ops.length := by
  intro ops
  induction ops with
  | nil =>
    intro st _
    simp
  | cons op rest ih =>
    intro st hall
    rw [List.foldl_cons]
    cases op with
    | add le name =>
      rw [ih _ (fun o ho => hall o (List.mem_cons_of_mem _ ho))]
      have hlen : (ConstrList.step st (.add le name)).length = st.length + 1 := by
        show (st ++ [(⟨(st.length : Int)⟩ : Constr)]).length = st.length + 1
        simp
      rw [hlen, List.length_cons]
      omega
    | remove hs =>
      have := hall _ (List.mem_cons_self _ _)
      simp [COp.isAdd] at this

/-- C2: after any finite sequence of `add` and `remove` operations from the
empty caching collection (variables or constraints), the cached sequence is
exactly `0, 1, ..., length - 1`, i.e. `sequence[i].index == i` at every
position; in particular a run of `add` calls with no removals leaves the
i-th added entity at index `i` and the length equal to the number of adds. -/
theorem add_remove_index_invariant :
    (∀ (ops : List VOp),
      VarList.run ops = rangeVars (VarList.run ops).length ∧
      ((∀ op ∈ ops, op.isAdd = true) → (VarList.run ops).length = ops.length)) ∧
    (∀ (ops : List COp),
      ConstrList.run ops = rangeConstrs (ConstrList.run ops).length ∧
      ((∀ op ∈ ops, op.isAdd = true) → (ConstrList.run ops).length = ops.length)) := by
  constructor
  · intro ops
    constructor
    · exact varRun_inv_aux ops [] rfl
    · intro hall
      have := varRun_length_adds ops [] hall
      simpa [VarList.run] using this
  · intro ops
    constructor
    · exact constrRun_inv_aux ops [] rfl
    · intro hall
      have := constrRun_length_adds ops [] hall
      simpa [ConstrList.run] using this

/-- Witness for `add_remove_index_invariant`: two adds followed by removal
of the handle at index 0 leave one cached variable at index 0; two pure
adds give indices 0 and 1 and length 2. -/
theorem add_remove_index_invariant_witness :
    (VarList.run [.add "" (F.fin 0) INF (F.fin 0) CONTINUOUS none,
        .add "" (F.fin 0) INF (F.fin 0) CONTINUOUS none]).length = 2 ∧
    VarList.run [.add "" (F.fin 0) INF (F.fin 0) CONTINUOUS none,
        .add "" (F.fin 0) INF (F.fin 0) CONTINUOUS none,
        .remove [Var.mk 0]]
      = rangeVars (VarList.run [.add "" (F.fin 0) INF (F.fin 0) CONTINUOUS none,
          .add "" (F.fin 0) INF (F.fin 0) CONTINUOUS none,
          .remove [Var.mk 0]]).length := by
  constructor
  · exact (add_remove_index_invariant.1 _).2 (by
      intro op hop
      fin_cases hop <;> rfl)
  · exact (add_remove_index_invariant.1 _).1

/-- C3: an `add` with the binary variable kind registers the variable with
the engine with lower bound exactly 0 and upper bound exactly 1, whatever
bounds the caller supplied — on the caching collection and on the view
collection alike. -/
theorem binary_add_forces_unit_bounds :
    (∀ (vars : List Var) (name : String) (lb ub obj : F) (col : Option Column),
      (VarList.add vars name lb ub obj BINARY col).call.lb = F.fin 0 ∧
      (VarList.add vars name lb ub obj BINARY col).call.ub = F.fin 1) ∧
    (∀ (numCols : Nat) (name : String) (lb ub obj : F) (col : Option Column),
      (VVarList.add numCols name lb ub obj BINARY col).call.lb = F.fin 0 ∧
      (VVarList.add numCols name lb ub obj BINARY col).call.ub = F.fin 1) := by
  constructor
  · intro vars name lb ub obj col
    exact ⟨rfl, rfl⟩
  · intro numCols name lb ub obj col
    exact ⟨rfl, rfl⟩

theorem removeCore_ok_sent {seqIdx hs : List Int} {r : RemoveCoreOut}
    (h : removeCore seqIdx hs = .ok r) : r.sent = hs.insertionSort (· ≤ ·) := by
  simp only [removeCore] at h
  cases hm : markIv (List.replicate seqIdx.length 1) (hs.insertionSort (· ≤ ·)) with
  | error e =>
    simp only [hm] at h
    exact Except.noConfusion h
  | ok iv =>
    simp only [hm] at h
    cases hl : reindexLoop iv seqIdx 0 with
    | error e =>
      simp only [hl] at h
      exact Except.noConfusion h
    | ok newIdx =>
      simp only [hl] at h
      injection h with h2
      rw [← h2]

/-- C8 (amended): the position list handed to the engine's batch removal is
the caller's handle indices sorted ascending — a permutation of what was
supplied, so duplicate positions are kept, not removed. -/
theorem remove_sends_sorted_perm :
    (∀ (vars toRemove : List Var) (out : VRemoveOut),
      VarList.remove vars toRemove = .ok out →
      out.sent.Sorted (· ≤ ·) ∧ out.sent.Perm (toRemove.map Var.idx)) ∧
    (∀ (constrs toRemove : List Constr) (out : CRemoveOut),
      ConstrList.remove constrs toRemove = .ok out →
      out.sent.Sorted (· ≤ ·) ∧ out.sent.Perm (toRemove.map Constr.idx)) := by
  constructor
  · intro vars toRemove out h
    unfold VarList.remove at h
    cases hc : removeCore (vars.map Var.idx) (toRemove.map Var.idx) with
    | error e =>
      simp only [hc] at h
      exact Except.noConfusion h
    | ok r =>
      simp only [hc] at h
      injection h with h2
      rw [← h2]
      show r.sent.Sorted (· ≤ ·) ∧ r.sent.Perm (toRemove.map Var.idx)
      rw [removeCore_ok_sent hc]
      exact ⟨List.sorted_insertionSort _ _, List.perm_insertionSort _ _⟩
  · intro constrs toRemove out h
    unfold ConstrList.remove at h
    cases hc : removeCore (constrs.map Constr.idx) (toRemove.map Constr.idx) with
    | error e =>
      simp only [hc] at h
      exact Except.noConfusion h
    | ok r =>
      simp only [hc] at h
      injection h with h2
      rw [← h2]
      show r.sent.Sorted (· ≤ ·) ∧ r.sent.Perm (toRemove.map Constr.idx)
      rw [removeCore_ok_sent hc]
      exact ⟨List.sorted_insertionSort _ _, List.perm_insertionSort _ _⟩

/-- Counterexample to C8 as stated: two handles denoting the same entity
(index 0 twice) make the engine receive `[0, 0]` — sorted, but with a
duplicate position. -/
theorem remove_sends_duplicates_cex :
    VarList.remove (rangeVars 2) [⟨0⟩, ⟨0⟩]
      = .ok ⟨[0, 0], [-1, 0], [⟨0⟩]⟩ ∧ ¬ ([0, 0] : List Int).Nodup := by
  constructor
  · rfl
  · decide

/-- Witness for `remove_sends_sorted_perm`: handles supplied unsorted as
indices 1, 0 reach the engine as the sorted list `[0, 1]`. -/
theorem remove_sends_sorted_perm_witness :
    ([0, 1] : List Int).Sorted (· ≤ ·)
      ∧ ([0, 1] : List Int).Perm (([⟨1⟩, ⟨0⟩] : List Var).map Var.idx) :=
  remove_sends_sorted_perm.1 (rangeVars 2) [⟨1⟩, ⟨0⟩] ⟨[0, 1], [-1, -1], []⟩ rfl

theorem pyGet_ok_iff {α : Type} (xs : List α) (i : Int) :
    (∃ v, pyGet xs i = .ok v)
      ↔ (-(xs.length : Int) ≤ i ∧ i < (xs.length : Int)) := by
  simp only [pyGet]
  by_cases hneg : i < 0
  · simp only [hneg, if_true]
    by_cases hc : 0 ≤ (xs.length : Int) + i ∧ (xs.length : Int) + i < (xs.length : Int)
    · rw [dif_pos hc]
      constructor
      · intro _
        omega
      · intro _
        exact ⟨_, rfl⟩
    · rw [dif_neg hc]
      constructor
      · rintro ⟨v, hv⟩
        exact absurd hv (by simp)
      · intro h
        rcases not_and_or.mp hc with h1 | h2 <;> omega
  · simp only [hneg, if_false]
    by_cases hc : 0 ≤ i ∧ i < (xs.length : Int)
    · rw [dif_pos hc]
      constructor
      · intro _
        omega
      · intro _
        exact ⟨_, rfl⟩
    · rw [dif_neg hc]
      constructor
      · rintro ⟨v, hv⟩
        exact absurd hv (by simp)
      · intro h
        rcases not_and_or.mp hc with h1 | h2 <;> omega

/-- C4 (amended): exact domain of integer lookup.  On a caching collection
an integer key succeeds exactly when it lies in `[-length, length)` —
negative keys resolve from the end, so only the exclusive upper bound of
the claim holds.  On the variables view a key succeeds exactly when it lies
in `[0, end)`: the upper check is against the absolute `end`, not the
window width, and every negative key fails.  On the constraints view there
is no range check at all: every integer key returns a handle. -/
theorem getitem_int_range_behavior :
    (∀ (vars : List Var) (key : Int),
      (∃ v, VarList.getitemInt vars key = .ok v)
        ↔ (-(vars.length : Int) ≤ key ∧ key < (vars.length : Int))) ∧
    (∀ (constrs : List Constr) (key : Int),
      (∃ c, ConstrList.getitemInt constrs key = .ok c)
        ↔ (-(constrs.length : Int) ≤ key ∧ key < (constrs.length : Int))) ∧
    (∀ (vv : VVarList) (key : Int),
      (∃ res, VVarList.getitem vv (.int key) = .ok res)
        ↔ (0 ≤ key ∧ key < vv.vend)) ∧
    (∀ (fuel : Nat) (key : Int),
      VConstrList.getitem fuel (.int key) = .ok (.constr ⟨key⟩)) := by
  refine ⟨?_, ?_, ?_, ?_⟩
  · intro vars key
    exact pyGet_ok_iff vars key
  · intro constrs key
    exact pyGet_ok_iff constrs key
  · intro vv key
    simp only [VVarList.getitem]
    by_cases hneg : key < 0
    · rw [if_pos hneg, if_pos (by omega)]
      constructor
      · rintro ⟨res, hres⟩
        exact absurd hres (by simp)
      · intro h
        omega
    · rw [if_neg hneg]
      by_cases hge : key ≥ vv.vend
      · rw [if_pos hge]
        constructor
        · rintro ⟨res, hres⟩
          exact absurd hres (by simp)
        · intro h
          omega
      · rw [if_neg hge]
        constructor
        · intro _
          omega
        · intro _
          exact ⟨_, rfl⟩
  · intro fuel key
    cases fuel <;> rfl

/-- Counterexample to C4 as stated: on a caching collection of length 1 the
integer key `-1` lies outside `[0, length())` yet the lookup succeeds and
returns the cached handle, by Python negative indexing. -/
theorem getitem_negative_key_succeeds_cex :
    VarList.getitemInt (rangeVars 1) (-1) = .ok ⟨0⟩ ∧ ((-1 : Int) < 0) :=
  ⟨rfl, by decide⟩

/-- C5: evaluating the code at the claim's input.  On the view over five
columns, `view[-1]` resolves the key as `end - (-1) = 6`, which fails the
`key >= end` check, so the lookup raises `IndexError` instead of returning
the handle at position `end - 1`; in fact every negative key `-(k+1)` fails
the same way, on every view. -/
theorem vvarlist_negative_index_raises :
    VVarList.getitem (VVarList.init 5 (-1) (-1)) (.int (-1)) = .error .indexError ∧
    ∀ (vv : VVarList) (k : Nat),
      VVarList.getitem vv (.int (-((k : Int) + 1))) = .error .indexError := by
  constructor
  · rfl
  · intro vv k
    simp only [VVarList.getitem]
    have h1 : (-((k : Int) + 1)) < 0 := by omega
    rw [if_pos h1]
    have h2 : vv.vend - -((k : Int) + 1) ≥ vv.vend := by omega
    rw [if_pos h2]

/-- C6 (amended): `length()` on a variables view always returns the
engine's live column count queried fresh at the call — for an unscoped view
(which therefore tracks entities added directly through the engine) and for
a scoped view alike; a scoped view does not report its width. -/
theorem vvarlist_len_fresh_engine_count :
    ∀ (numColsAtInit : Nat) (start stop : Int) (numColsNow : Nat),
      VVarList.len (VVarList.init numColsAtInit start stop) numColsNow
        = numColsNow := by
  intro _ _ _ _
  rfl

/-- Counterexample to C6 as stated: a view scoped to `[1, 3)` (width 2)
over an engine reporting 10 live columns returns length 10, not `3 - 1`. -/
theorem vvarlist_scoped_len_cex :
    VVarList.len (VVarList.init 10 1 3) 10 = 10 ∧ (10 : Nat) ≠ 3 - 1 :=
  ⟨rfl, by decide⟩

/-- C7: evaluating the code on a sub-range lookup.  The variables view
evaluates `key.end` on a Python slice object, which has no attribute `end`,
raising `AttributeError` before any sub-view is built; the constraints view
executes `return self[key]` with the unchanged key and recurses until the
interpreter's recursion limit is exhausted.  Neither view ever returns a
sub-view. -/
theorem view_slice_lookup_raises :
    (∀ (vv : VVarList) (a b : Int),
      VVarList.getitem vv (.slice a b) = .error .attributeError) ∧
    (∀ (fuel : Nat) (a b : Int),
      VConstrList.getitem fuel (.slice a b) = .error .recursionError) := by
  constructor
  · intro vv a b
    rfl
  · intro fuel a b
    induction fuel with
    | zero => rfl
    | succ n ih => exact ih
